import Mathlib

/-!
Verification of the LM5148 equation-extraction pipeline
(`export_lm5148_equations_to_excel.py`, `lm5148_design_tool.py`).

The Python functions are shallowly embedded: strings are `String`
(lists of Unicode code points, matching Python `str`), page/bbox
coordinates are `ℚ` (the scripts only ever compare and round them),
page numbers are `ℤ`.  I/O-only parts (PDF rendering, Excel writing,
image files) are outside every claim and are not modelled.
-/

namespace LM5148

/-- Python's whitespace predicate (`Py_UNICODE_ISSPACE`), the character
class used by `str.split()` and `str.strip()` with no arguments. -/
def pyIsSpace (c : Char) : Bool :=
  decide (c.toNat = 0x20 ∨ (0x9 ≤ c.toNat ∧ c.toNat ≤ 0xd) ∨
    (0x1c ≤ c.toNat ∧ c.toNat ≤ 0x1f) ∨ c.toNat = 0x85 ∨ c.toNat = 0xa0 ∨
    c.toNat = 0x1680 ∨ (0x2000 ≤ c.toNat ∧ c.toNat ≤ 0x200a) ∨
    c.toNat = 0x2028 ∨ c.toNat = 0x2029 ∨ c.toNat = 0x202f ∨
    c.toNat = 0x205f ∨ c.toNat = 0x3000)

/-- Accumulator-style word splitter: `splitAux l acc` is Python
`str.split()` applied to `acc.reverse ++ l`, where `acc` holds the
(reversed) word currently being read. -/
def splitAux : List Char → List Char → List (List Char)
  | [], acc => if acc.isEmpty then [] else [acc.reverse]
  | c :: cs, acc =>
    if pyIsSpace c then
      if acc.isEmpty then splitAux cs [] else acc.reverse :: splitAux cs []
    else splitAux cs (c :: acc)

/-- Python `text.split()`: whitespace-delimited words, empty words dropped. -/
def pwords (l : List Char) : List (List Char) :=
  splitAux l []

/-- `" ".join(ws)`: interleave a single ASCII space between words. -/
def joinSp : List (List Char) → List Char
  | [] => []
  | [w] => w
  | w :: v :: ws => w ++ ' ' :: joinSp (v :: ws)

/-- Python `str.strip()`: drop leading and trailing whitespace. -/
def stripL (l : List Char) : List Char :=
  (((l.dropWhile pyIsSpace).reverse.dropWhile pyIsSpace)).reverse

/-- The character substitution of `t.replace("−", "-")`: the pattern is a
single code point (U+2212), so the substring replacement is the pointwise
map sending U+2212 to ASCII hyphen-minus. -/
def repMinus (c : Char) : Char :=
  if c = '−' then '-' else c

/-- List-level body of `normalize_equation_text`:
`" ".join(text.split())`, then `.replace("−", "-")`, then `.strip()`. -/
def normalizeL (l : List Char) : List Char :=
  stripL ((joinSp (pwords l)).map repMinus)

/-- `normalize_equation_text` from `export_lm5148_equations_to_excel.py`. -/
def normalize_equation_text (s : String) : String :=
  ⟨normalizeL s.data⟩

example : normalize_equation_text "  VOUT   =  5 V " = "VOUT = 5 V" := by decide

example : normalize_equation_text "a −b\n c" = "a -b c" := by decide

example : normalize_equation_text "" = "" := by decide

/-- A word as produced by `str.split()`: non-empty and whitespace-free. -/
def wordOK (w : List Char) : Prop :=
  w ≠ [] ∧ ∀ c ∈ w, pyIsSpace c = false

/-- All words of a split result are `wordOK`. -/
def wordsOK (ws : List (List Char)) : Prop :=
  ∀ w ∈ ws, wordOK w

theorem splitAux_append_word (w : List Char) (l acc : List Char)
    (hw : ∀ c ∈ w, pyIsSpace c = false) :
    splitAux (w ++ l) acc = splitAux l (w.reverse ++ acc) := by
  induction w generalizing acc with
  | nil => simp
  | cons c w ih =>
    have hc : pyIsSpace c = false := hw c (by simp)
    have hw' : ∀ d ∈ w, pyIsSpace d = false := fun d hd => hw d (by simp [hd])
    simp only [List.cons_append, splitAux, hc, Bool.false_eq_true, if_false,
      List.reverse_cons, List.append_assoc, List.singleton_append]
    exact ih (c :: acc) hw'

theorem joinSp_cons (w : List Char) (ws : List (List Char)) (h : ws ≠ []) :
    joinSp (w :: ws) = w ++ ' ' :: joinSp ws := by
  cases ws with
  | nil => exact absurd rfl h
  | cons v ws => rfl

theorem pwords_joinSp (ws : List (List Char)) (h : wordsOK ws) :
    pwords (joinSp ws) = ws := by
  induction ws with
  | nil => rfl
  | cons w ws ih =>
    have hw : wordOK w := h w (by simp)
    have hws : wordsOK ws := fun v hv => h v (by simp [hv])
    cases ws with
    | nil =>
      show splitAux w [] = [w]
      have h1 := splitAux_append_word w [] [] hw.2
      rw [List.append_nil, List.append_nil] at h1
      rw [h1]
      simp only [splitAux, List.isEmpty_eq_true, List.reverse_eq_nil_iff]
      rw [if_neg hw.1]
      simp
    | cons v ws' =>
      show splitAux (joinSp (w :: v :: ws')) [] = w :: v :: ws'
      rw [joinSp_cons w (v :: ws') (by simp)]
      rw [splitAux_append_word w (' ' :: joinSp (v :: ws')) [] hw.2]
      have hsp : pyIsSpace ' ' = true := by decide
      simp only [splitAux, hsp, if_true, List.append_nil, List.isEmpty_eq_true,
        List.reverse_eq_nil_iff]
      rw [if_neg hw.1]
      rw [List.reverse_reverse]
      exact congrArg (w :: ·) (ih hws)

theorem wordsOK_splitAux (l : List Char) (acc : List Char)
    (hacc : ∀ c ∈ acc, pyIsSpace c = false) :
    wordsOK (splitAux l acc) := by
  induction l generalizing acc with
  | nil =>
    intro w hw
    simp only [splitAux] at hw
    by_cases he : acc.isEmpty
    · simp [he] at hw
    · rw [if_neg he] at hw
      simp only [List.mem_singleton] at hw
      subst hw
      refine ⟨by simpa [List.isEmpty_eq_true, List.reverse_eq_nil_iff] using he, ?_⟩
      intro c hc
      exact hacc c (List.mem_reverse.mp hc)
  | cons c cs ih =>
    intro w hw
    simp only [splitAux] at hw
    by_cases hc : pyIsSpace c
    · rw [if_pos hc] at hw
      by_cases he : acc.isEmpty
      · rw [if_pos he] at hw
        exact ih [] (by simp) w hw
      · rw [if_neg he] at hw
        rcases List.mem_cons.mp hw with h | h
        · subst h
          refine ⟨by simpa [List.isEmpty_eq_true, List.reverse_eq_nil_iff] using he, ?_⟩
          intro d hd
          exact hacc d (List.mem_reverse.mp hd)
        · exact ih [] (by simp) w h
    · rw [if_neg hc] at hw
      refine ih (c :: acc) ?_ w hw
      intro d hd
      rcases List.mem_cons.mp hd with h | h
      · subst h; exact Bool.eq_false_iff.mpr hc
      · exact hacc d h

theorem wordsOK_pwords (l : List Char) : wordsOK (pwords l) :=
  wordsOK_splitAux l [] (by simp)

theorem pyIsSpace_repMinus (c : Char) : pyIsSpace (repMinus c) = pyIsSpace c := by
  unfold repMinus
  by_cases h : c = '−'
  · subst h; decide
  · rw [if_neg h]

theorem joinSp_map_repMinus (ws : List (List Char)) :
    (joinSp ws).map repMinus = joinSp (ws.map (List.map repMinus)) := by
  induction ws with
  | nil => rfl
  | cons w ws ih =>
    cases ws with
    | nil => rfl
    | cons v ws' =>
      rw [joinSp_cons w (v :: ws') (by simp), List.map_cons,
        joinSp_cons (w.map repMinus) ((v :: ws').map (List.map repMinus)) (by simp)]
      have : repMinus ' ' = ' ' := by decide
      simp only [List.map_append, List.map_cons, this]
      rw [ih]
      rfl

theorem wordsOK_map_repMinus (ws : List (List Char)) (h : wordsOK ws) :
    wordsOK (ws.map (List.map repMinus)) := by
  intro w hw
  rcases List.mem_map.mp hw with ⟨v, hv, rfl⟩
  rcases h v hv with ⟨hne, hsp⟩
  refine ⟨by simpa using hne, ?_⟩
  intro c hc
  rcases List.mem_map.mp hc with ⟨d, hd, rfl⟩
  rw [pyIsSpace_repMinus]
  exact hsp d hd

theorem joinSp_head (ws : List (List Char)) (h : wordsOK ws) :
    ws = [] ∨ ∃ c cs, joinSp ws = c :: cs ∧ pyIsSpace c = false := by
  cases ws with
  | nil => exact Or.inl rfl
  | cons w ws =>
    right
    rcases h w (by simp) with ⟨hne, hsp⟩
    cases w with
    | nil => exact absurd rfl hne
    | cons c w' =>
      cases ws with
      | nil => exact ⟨c, w', rfl, hsp c (by simp)⟩
      | cons v ws' =>
        refine ⟨c, w' ++ ' ' :: joinSp (v :: ws'), ?_, hsp c (by simp)⟩
        rw [joinSp_cons _ (v :: ws') (by simp)]
        rfl

theorem joinSp_rev_head (ws : List (List Char)) (h : wordsOK ws) :
    ws = [] ∨ ∃ c cs, (joinSp ws).reverse = c :: cs ∧ pyIsSpace c = false := by
  induction ws with
  | nil => exact Or.inl rfl
  | cons w ws ih =>
    right
    rcases h w (by simp) with ⟨hne, hsp⟩
    cases ws with
    | nil =>
      have hrev : w.reverse ≠ [] := by simpa [List.reverse_eq_nil_iff] using hne
      cases hr : w.reverse with
      | nil => exact absurd hr hrev
      | cons c cs =>
        refine ⟨c, cs, hr, ?_⟩
        have : c ∈ w := List.mem_reverse.mp (by rw [hr]; simp)
        exact hsp c this
    | cons v ws' =>
      rcases ih (fun u hu => h u (by simp [hu])) with h0 | ⟨c, cs, hrev, hc⟩
      · exact absurd h0 (by simp)
      · refine ⟨c, cs ++ ' ' :: w.reverse, ?_, hc⟩
        rw [joinSp_cons w (v :: ws') (by simp)]
        rw [List.reverse_append, List.reverse_cons, hrev]
        simp

theorem stripL_joinSp (ws : List (List Char)) (h : wordsOK ws) :
    stripL (joinSp ws) = joinSp ws := by
  rcases joinSp_head ws h with h0 | ⟨c, cs, hj, hc⟩
  · subst h0; rfl
  · unfold stripL
    rw [hj, List.dropWhile_cons, if_neg (by simp [hc]), ← hj]
    rcases joinSp_rev_head ws h with h0 | ⟨d, ds, hr, hd⟩
    · rw [h0] at hj; simp [joinSp] at hj
    · rw [hr, List.dropWhile_cons, if_neg (by simp [hd]), ← hr,
        List.reverse_reverse]

theorem normalizeL_eq_joinSp (l : List Char) :
    normalizeL l = joinSp ((pwords l).map (List.map repMinus)) := by
  unfold normalizeL
  rw [joinSp_map_repMinus]
  exact stripL_joinSp _ (wordsOK_map_repMinus _ (wordsOK_pwords l))

theorem repMinus_repMinus (c : Char) : repMinus (repMinus c) = repMinus c := by
  unfold repMinus
  by_cases h : c = '−'
  · subst h; decide
  · rw [if_neg h, if_neg h]

theorem normalizeL_idem (l : List Char) :
    normalizeL (normalizeL l) = normalizeL l := by
  rw [normalizeL_eq_joinSp l]
  set ws : List (List Char) := (pwords l).map (List.map repMinus) with hws
  have hok : wordsOK ws := wordsOK_map_repMinus _ (wordsOK_pwords l)
  rw [normalizeL_eq_joinSp (joinSp ws), pwords_joinSp ws hok]
  have : ws.map (List.map repMinus) = ws := by
    rw [List.map_map]
    have : (List.map repMinus ∘ List.map repMinus) = List.map repMinus := by
      funext w
      simp only [Function.comp_apply, List.map_map]
      exact congrArg (fun f => List.map f w) (funext repMinus_repMinus)
    rw [this]
  rw [this]

theorem mem_joinSp (ws : List (List Char)) (c : Char) (h : c ∈ joinSp ws) :
    c = ' ' ∨ ∃ w ∈ ws, c ∈ w := by
  induction ws with
  | nil => simp [joinSp] at h
  | cons w ws ih =>
    cases ws with
    | nil =>
      right
      exact ⟨w, by simp, h⟩
    | cons v ws' =>
      rw [joinSp_cons w (v :: ws') (by simp)] at h
      rcases List.mem_append.mp h with hw | hrest
      · exact Or.inr ⟨w, by simp, hw⟩
      · rcases List.mem_cons.mp hrest with h0 | hj
        · exact Or.inl h0
        · rcases ih hj with h0 | ⟨u, hu, hcu⟩
          · exact Or.inl h0
          · exact Or.inr ⟨u, by simp [hu], hcu⟩

/-- Adjacent-character relation: no two whitespace characters side by side. -/
def noTwoSpaces (a b : Char) : Prop :=
  pyIsSpace a = false ∨ pyIsSpace b = false

theorem chain_of_all_nonspace (w : List Char)
    (h : ∀ c ∈ w, pyIsSpace c = false) : w.Chain' noTwoSpaces :=
  List.Pairwise.chain'
    (List.pairwise_of_forall_mem_list fun a ha _ _ => Or.inl (h a ha))

theorem joinSp_chain (ws : List (List Char)) (h : wordsOK ws) :
    (joinSp ws).Chain' noTwoSpaces := by
  induction ws with
  | nil => simp [joinSp]
  | cons w ws ih =>
    have hw := h w (by simp)
    cases ws with
    | nil => exact chain_of_all_nonspace w hw.2
    | cons v ws' =>
      rw [joinSp_cons w (v :: ws') (by simp)]
      rw [List.chain'_append]
      refine ⟨chain_of_all_nonspace w hw.2, ?_, ?_⟩
      · rw [List.chain'_cons']
        refine ⟨?_, ih (fun u hu => h u (by simp [hu]))⟩
        intro y hy
        rcases joinSp_head (v :: ws') (fun u hu => h u (by simp [hu])) with
          h0 | ⟨d, ds, hj, hd⟩
        · simp at h0
        · rw [hj] at hy
          simp only [List.head?_cons, Option.mem_def, Option.some.injEq] at hy
          subst hy
          exact Or.inr hd
      · intro x hx y hy
        exact Or.inl (hw.2 x (List.mem_of_getLast?_eq_some hx))

/-- C6: `normalize_equation_text` is a total deterministic pure function
(it is a Lean function) that collapses every run of whitespace (including
newlines) to a single ASCII space, trims both ends, and replaces the
Unicode minus U+2212 by the ASCII hyphen-minus; the empty string maps to
the empty string.  Conjuncts: (1) closed form — the result is exactly the
whitespace-delimited words of the input, each with U+2212 replaced,
joined by single spaces (which is precisely run-collapse plus trim);
(2) empty input yields empty output; (3) no U+2212 survives; (4) the
result carries no leading or trailing whitespace (stripping it again is
the identity); (5) the only whitespace character in the result is the
ASCII space; (6) no two adjacent whitespace characters remain. -/
theorem C6_normalize_equation_text_spec :
    (∀ s : String, normalize_equation_text s =
      ⟨joinSp ((pwords s.data).map (List.map repMinus))⟩) ∧
    normalize_equation_text "" = "" ∧
    (∀ s : String, '−' ∉ (normalize_equation_text s).data) ∧
    (∀ s : String, stripL (normalize_equation_text s).data =
      (normalize_equation_text s).data) ∧
    (∀ s : String, ∀ c ∈ (normalize_equation_text s).data,
      pyIsSpace c = true → c = ' ') ∧
    (∀ s : String, (normalize_equation_text s).data.Chain' noTwoSpaces) := by
  have hform : ∀ s : String, (normalize_equation_text s).data =
      joinSp ((pwords s.data).map (List.map repMinus)) := by
    intro s
    show normalizeL s.data = _
    exact normalizeL_eq_joinSp s.data
  have hok : ∀ s : String,
      wordsOK ((pwords s.data).map (List.map repMinus)) := fun s =>
    wordsOK_map_repMinus _ (wordsOK_pwords s.data)
  refine ⟨?_, by decide, ?_, ?_, ?_, ?_⟩
  · intro s
    exact congrArg String.mk (hform s)
  · intro s hmem
    rw [hform s] at hmem
    rcases mem_joinSp _ _ hmem with h0 | ⟨w, hw, hcw⟩
    · exact absurd h0 (by decide)
    · rcases List.mem_map.mp hw with ⟨v, _, rfl⟩
      rcases List.mem_map.mp hcw with ⟨d, _, hd⟩
      revert hd
      unfold repMinus
      by_cases hdm : d = '−'
      · rw [if_pos hdm]; decide
      · rw [if_neg hdm]; intro h; exact hdm h
  · intro s
    rw [hform s]
    exact stripL_joinSp _ (hok s)
  · intro s c hmem hsp
    rw [hform s] at hmem
    rcases mem_joinSp _ _ hmem with h0 | ⟨w, hw, hcw⟩
    · exact h0
    · have := (hok s) w hw
      rw [this.2 c hcw] at hsp
      exact absurd hsp (by simp)
  · intro s
    rw [hform s]
    exact joinSp_chain _ (hok s)

/-- C6 witness: on a concrete string, the space surviving in the output
is the ASCII space. -/
theorem C6_witness :
    ' ' ∈ (normalize_equation_text " a  b ").data ∧ ' ' = ' ' :=
  ⟨by decide, C6_normalize_equation_text_spec.2.2.2.2.1 " a  b " ' '
    (by decide) (by decide)⟩

/-- C8: normalization is idempotent — re-normalizing an already
normalized string returns it unchanged. -/
theorem C8_normalize_equation_text_idem (s : String) :
    normalize_equation_text (normalize_equation_text s) =
      normalize_equation_text s :=
  congrArg String.mk (normalizeL_idem s.data)

/-- The single-character alternatives of `_EQUATION_HINT_RE`. -/
def mathHintChars : List Char := ['=', '≤', '≥', '≈', '≠', '/', '∑', '√', '^']

/-- The relational operators checked when `require_equals` is set. -/
def relationalChars : List Char := ['=', '≤', '≥', '≈', '≠']

/-- The characters exempting a ≥16-word block from the prose filter. -/
def proseExemptChars : List Char := ['=', '/', '∑', '√']

/-- The Unicode decimal-digit runs (general category Nd, Unicode 15.0):
each pair is the first and last code point of a contiguous block of
digits.  This is the character class Python `re` gives `\d` on `str`. -/
def ndRanges : List (ℕ × ℕ) :=
  [(0x30, 0x39), (0x660, 0x669), (0x6F0, 0x6F9), (0x7C0, 0x7C9),
   (0x966, 0x96F), (0x9E6, 0x9EF), (0xA66, 0xA6F), (0xAE6, 0xAEF),
   (0xB66, 0xB6F), (0xBE6, 0xBEF), (0xC66, 0xC6F), (0xCE6, 0xCEF),
   (0xD66, 0xD6F), (0xDE6, 0xDEF), (0xE50, 0xE59), (0xED0, 0xED9),
   (0xF20, 0xF29), (0x1040, 0x1049), (0x1090, 0x1099), (0x17E0, 0x17E9),
   (0x1810, 0x1819), (0x1946, 0x194F), (0x19D0, 0x19D9), (0x1A80, 0x1A89),
   (0x1A90, 0x1A99), (0x1B50, 0x1B59), (0x1BB0, 0x1BB9), (0x1C40, 0x1C49),
   (0x1C50, 0x1C59), (0xA620, 0xA629), (0xA8D0, 0xA8D9), (0xA900, 0xA909),
   (0xA9D0, 0xA9D9), (0xA9F0, 0xA9F9), (0xAA50, 0xAA59), (0xABF0, 0xABF9),
   (0xFF10, 0xFF19), (0x104A0, 0x104A9), (0x10D30, 0x10D39),
   (0x11066, 0x1106F), (0x110F0, 0x110F9), (0x11136, 0x1113F),
   (0x111D0, 0x111D9), (0x112F0, 0x112F9), (0x11450, 0x11459),
   (0x114D0, 0x114D9), (0x11650, 0x11659), (0x116C0, 0x116C9),
   (0x11730, 0x11739), (0x118E0, 0x118E9), (0x11950, 0x11959),
   (0x11C50, 0x11C59), (0x11D50, 0x11D59), (0x11DA0, 0x11DA9),
   (0x11F50, 0x11F59), (0x16A60, 0x16A69), (0x16AC0, 0x16AC9),
   (0x16B50, 0x16B59), (0x1D7CE, 0x1D7FF), (0x1E140, 0x1E149),
   (0x1E2F0, 0x1E2F9), (0x1E4F0, 0x1E4F9), (0x1E950, 0x1E959),
   (0x1FBF0, 0x1FBF9)]

/-- Python `re.search(r"\d", ...)` character test: any Unicode decimal
digit (category Nd). -/
def pyIsDigit (c : Char) : Bool :=
  ndRanges.any fun r => decide (r.1 ≤ c.toNat ∧ c.toNat ≤ r.2)

example : pyIsDigit '7' = true := by decide

example : pyIsDigit '٠' = true := by decide

example : pyIsDigit '５' = true := by decide

example : pyIsDigit 'x' = false := by decide

/-- Body of `looks_like_equation` after its first line `t =
normalize_equation_text(text)`, operating on the normalized character
list `t`.  `[A-Za-z]` is `Char.isAlpha` (exactly ASCII letters) and
`\d` is `pyIsDigit` (any Unicode Nd digit, as Python `re` matches on
`str`). -/
def looksCore (t : List Char) (min_len : ℕ) (require_equals : Bool) : Bool :=
  if t.length < min_len then false
  else
    let has_math_hint := t.any fun c => mathHintChars.contains c
    if !has_math_hint then false
    else if require_equals && !(t.any fun c => relationalChars.contains c) then
      false
    else if decide (16 ≤ (pwords t).length) &&
        !(t.any fun c => proseExemptChars.contains c) then
      false
    else
      let has_variable := t.any fun c => c.isAlpha
      let has_number := t.any fun c => pyIsDigit c
      (has_variable && has_math_hint) && (has_number || t.contains '=')

/-- `looks_like_equation` from `export_lm5148_equations_to_excel.py`. -/
def looks_like_equation (text : String) (min_len : ℕ)
    (require_equals : Bool) : Bool :=
  looksCore (normalizeL text.data) min_len require_equals

example : looks_like_equation "VOUT = 5 V" 6 true = true := by decide

example : looks_like_equation "x" 6 true = false := by decide

example : looks_like_equation "f = 1/(2·π·R·C)" 6 true = true := by decide

example : looks_like_equation "I_OUT / 2 amps" 6 true = false := by decide

example : looks_like_equation "I_OUT / 2 amps" 6 false = true := by decide

example : looks_like_equation "x ≈ ٠٠٠٠" 6 true = true := by decide

theorem hasAny_iff (t s : List Char) :
    (t.any fun c => s.contains c) = true ↔ ∃ c ∈ t, c ∈ s := by
  simp [List.any_eq_true]

/-- The early-return chain of `looks_like_equation` is the conjunction of
its five checks. -/
theorem looksCore_eq (t : List Char) (min_len : ℕ) (require_equals : Bool) :
    looksCore t min_len require_equals =
      (decide (min_len ≤ t.length) &&
       (t.any fun c => mathHintChars.contains c) &&
       (!(require_equals && !(t.any fun c => relationalChars.contains c))) &&
       (!(decide (16 ≤ (pwords t).length) &&
          !(t.any fun c => proseExemptChars.contains c))) &&
       ((t.any fun c => c.isAlpha) &&
        ((t.any fun c => pyIsDigit c) || t.contains '='))) := by
  unfold looksCore
  by_cases h1 : t.length < min_len
  · rw [if_pos h1, decide_eq_false (by omega : ¬min_len ≤ t.length)]
    simp
  · rw [if_neg h1, decide_eq_true (by omega : min_len ≤ t.length)]
    cases hhint : (t.any fun c => mathHintChars.contains c) <;>
      cases hre : (require_equals &&
        !(t.any fun c => relationalChars.contains c)) <;>
      cases hbig : (decide (16 ≤ (pwords t).length) &&
        !(t.any fun c => proseExemptChars.contains c)) <;>
      simp [hhint, hre, hbig]

/-- C1: the classifier returns true iff all five documented conditions
hold of the normalized text, and in particular `"VOUT = 5 V"` is
accepted and `"x"` rejected under the defaults `min_len = 6`,
`require_equals = true`. -/
theorem C1_looks_like_equation_iff :
    (∀ (t : String) (m : ℕ) (r : Bool),
      looks_like_equation t m r = true ↔
        (m ≤ (normalizeL t.data).length ∧
         (∃ c ∈ normalizeL t.data, c ∈ mathHintChars) ∧
         (r = true → ∃ c ∈ normalizeL t.data, c ∈ relationalChars) ∧
         ¬(16 ≤ (pwords (normalizeL t.data)).length ∧
            ∀ c ∈ normalizeL t.data, c ∉ proseExemptChars) ∧
         ((∃ c ∈ normalizeL t.data, c.isAlpha = true) ∧
          ((∃ c ∈ normalizeL t.data, pyIsDigit c = true) ∨
            '=' ∈ normalizeL t.data)))) ∧
    looks_like_equation "VOUT = 5 V" 6 true = true ∧
    looks_like_equation "x" 6 true = false := by
  refine ⟨?_, by decide, by decide⟩
  intro t m r
  unfold looks_like_equation
  rw [looksCore_eq]
  set n := normalizeL t.data with hn
  clear_value n
  simp only [Bool.and_eq_true]
  constructor
  · rintro ⟨⟨⟨⟨hA, hB⟩, hC⟩, hD⟩, hE, hF⟩
    have hC' : (r && !(n.any fun c => relationalChars.contains c)) = false := by
      revert hC; cases r && !(n.any fun c => relationalChars.contains c) <;> simp
    have hD' : (decide (16 ≤ (pwords n).length) &&
        !(n.any fun c => proseExemptChars.contains c)) = false := by
      revert hD
      cases decide (16 ≤ (pwords n).length) &&
        !(n.any fun c => proseExemptChars.contains c) <;> simp
    refine ⟨of_decide_eq_true hA, (hasAny_iff n mathHintChars).mp hB,
      ?_, ?_, List.any_eq_true.mp hE, ?_⟩
    · intro hr
      rw [hr, Bool.true_and] at hC'
      have : (n.any fun c => relationalChars.contains c) = true := by
        revert hC'; cases n.any fun c => relationalChars.contains c <;> simp
      exact (hasAny_iff n relationalChars).mp this
    · rintro ⟨hbig, hnone⟩
      rw [decide_eq_true hbig, Bool.true_and] at hD'
      have : (n.any fun c => proseExemptChars.contains c) = true := by
        revert hD'; cases n.any fun c => proseExemptChars.contains c <;> simp
      rcases (hasAny_iff n proseExemptChars).mp this with ⟨c, hc, hcs⟩
      exact hnone c hc hcs
    · rw [Bool.or_eq_true] at hF
      rcases hF with hd | he
      · exact Or.inl (List.any_eq_true.mp hd)
      · exact Or.inr (by simpa using he)
  · rintro ⟨h1, h2, h3, h4, h5, h6⟩
    refine ⟨⟨⟨⟨decide_eq_true h1, (hasAny_iff n mathHintChars).mpr h2⟩, ?_⟩,
      ?_⟩, List.any_eq_true.mpr h5, ?_⟩
    · cases hr : r with
      | false => rfl
      | true =>
        rw [(hasAny_iff n relationalChars).mpr (h3 hr)]
        rfl
    · by_cases hbig : 16 ≤ (pwords n).length
      · have : ∃ c ∈ n, c ∈ proseExemptChars := by
          by_contra hno
          push_neg at hno
          exact h4 ⟨hbig, hno⟩
        rw [(hasAny_iff n proseExemptChars).mpr this, decide_eq_true hbig]
        rfl
      · rw [decide_eq_false hbig]
        rfl
    · rw [Bool.or_eq_true]
      rcases h6 with ⟨c, hc, hcd⟩ | he
      · exact Or.inl (List.any_eq_true.mpr ⟨c, hc, hcd⟩)
      · exact Or.inr (by simpa using he)

/-- C1 witness: the five conditions hold concretely of the normalized
form of the accepted example under the defaults. -/
theorem C1_witness :
    6 ≤ (normalizeL "VOUT = 5 V".data).length ∧
    (∃ c ∈ normalizeL "VOUT = 5 V".data, c ∈ mathHintChars) ∧
    (true = true → ∃ c ∈ normalizeL "VOUT = 5 V".data,
      c ∈ relationalChars) ∧
    ¬(16 ≤ (pwords (normalizeL "VOUT = 5 V".data)).length ∧
       ∀ c ∈ normalizeL "VOUT = 5 V".data, c ∉ proseExemptChars) ∧
    ((∃ c ∈ normalizeL "VOUT = 5 V".data, c.isAlpha = true) ∧
     ((∃ c ∈ normalizeL "VOUT = 5 V".data, pyIsDigit c = true) ∨
       '=' ∈ normalizeL "VOUT = 5 V".data)) :=
  (C1_looks_like_equation_iff.1 "VOUT = 5 V" 6 true).mp (by decide)

/-- C9: the classifier is invariant under prior normalization, because
its first step normalizes and normalization is idempotent. -/
theorem C9_looks_like_equation_normalize_invariant (t : String) (m : ℕ)
    (r : Bool) :
    looks_like_equation (normalize_equation_text t) m r =
      looks_like_equation t m r := by
  show looksCore (normalizeL (normalizeL t.data)) m r =
    looksCore (normalizeL t.data) m r
  rw [normalizeL_idem]

/-- Bounding box `(x0, y0, x1, y1)` in PDF points. -/
abbrev BBox := ℚ × ℚ × ℚ × ℚ

/-- An element of the candidate stream fed to `dedupe`:
`(page_num, text, bbox)`. -/
abbrev Item := ℤ × String × BBox

/-- Round to the nearest integer, ties to even — the rounding mode of
Python's built-in `round`. -/
def roundHalfEven (q : ℚ) : ℤ :=
  if q - ⌊q⌋ < 1/2 then ⌊q⌋
  else if 1/2 < q - ⌊q⌋ then ⌊q⌋ + 1
  else if ⌊q⌋ % 2 = 0 then ⌊q⌋ else ⌊q⌋ + 1

/-- Python `round(v, 1)`: one decimal place, ties to even. -/
def round1 (q : ℚ) : ℚ :=
  (roundHalfEven (10 * q) : ℚ) / 10

/-- Evaluation rule for `round1` when the fractional part is below one
half. -/
theorem round1_lt_half (q : ℚ) (n : ℤ) (h1 : (n:ℚ) ≤ 10*q)
    (h2 : 10*q - n < 1/2) : round1 q = (n:ℚ)/10 := by
  have hf : ⌊(10*q : ℚ)⌋ = n := Int.floor_eq_iff.mpr ⟨h1, by linarith⟩
  unfold round1 roundHalfEven
  rw [hf, if_pos h2]

/-- Evaluation rule for `round1` when the fractional part is above one
half. -/
theorem round1_gt_half (q : ℚ) (n : ℤ) (h1 : (n:ℚ) ≤ 10*q)
    (h2 : 1/2 < 10*q - n) (h3 : 10*q < n + 1) :
    round1 q = ((n:ℚ)+1)/10 := by
  have hf : ⌊(10*q : ℚ)⌋ = n := Int.floor_eq_iff.mpr ⟨h1, by linarith⟩
  unfold round1 roundHalfEven
  rw [hf, if_neg (by linarith), if_pos h2]
  push_cast
  ring

/-- `tuple(round(v, 1) for v in bbox)`. -/
def roundBBox (bb : BBox) : BBox :=
  (round1 bb.1, round1 bb.2.1, round1 bb.2.2.1, round1 bb.2.2.2)

/-- The deduplication key `(page_num, normalized text, rounded bbox)`. -/
def ddKey (it : Item) : ℤ × String × BBox :=
  (it.1, normalize_equation_text it.2.1, roundBBox it.2.2)

/-- The record `dedupe` appends to `out`: the original page, the
normalized text, and the original (un-rounded) bbox. -/
def normItem (it : Item) : Item :=
  (it.1, normalize_equation_text it.2.1, it.2.2)

/-- The loop of `dedupe`, with the running `seen` set modelled as the
list of keys added so far (only membership is consulted). -/
def dedupeGo : List Item → List (ℤ × String × BBox) → List Item
  | [], _ => []
  | it :: rest, seen =>
    if ddKey it ∈ seen then dedupeGo rest seen
    else normItem it :: dedupeGo rest (ddKey it :: seen)

/-- `dedupe` from `export_lm5148_equations_to_excel.py`. -/
def dedupe (items : List Item) : List Item :=
  dedupeGo items []

/-- First-occurrence-per-key selection: keep the head, drop every later
element with an equal key, recurse.  The kept record carries the
normalized text and the original bbox. -/
def dedupeSpec : List Item → List Item
  | [] => []
  | it :: rest =>
    normItem it :: dedupeSpec (rest.filter fun y => decide (ddKey y ≠ ddKey it))
termination_by l => l.length
decreasing_by
  simp only [List.length_cons]
  exact Nat.lt_succ_of_le (List.length_filter_le _ _)

theorem dedupeGo_eq_spec (items : List Item)
    (seen : List (ℤ × String × BBox)) :
    dedupeGo items seen =
      dedupeSpec (items.filter fun y => decide (ddKey y ∉ seen)) := by
  induction items generalizing seen with
  | nil => simp [dedupeGo, dedupeSpec]
  | cons it rest ih =>
    rw [List.filter_cons]
    by_cases hk : ddKey it ∈ seen
    · rw [dedupeGo, if_pos hk, if_neg (by simp [hk]), ih]
    · rw [dedupeGo, if_neg hk, if_pos (by simp [hk]), dedupeSpec,
        ih (ddKey it :: seen), List.filter_filter]
      have hf : (rest.filter fun y => decide (ddKey y ∉ ddKey it :: seen)) =
          (rest.filter fun a =>
            decide (ddKey a ≠ ddKey it) && decide (ddKey a ∉ seen)) := by
        apply List.filter_congr
        intro a _
        by_cases h1 : ddKey a = ddKey it <;> by_cases h2 : ddKey a ∈ seen <;>
          simp [h1, h2]
      rw [hf]

theorem dedupe_eq_dedupeSpec (items : List Item) :
    dedupe items = dedupeSpec items := by
  rw [dedupe, dedupeGo_eq_spec]
  congr 1
  exact List.filter_eq_self.mpr fun a _ => by simp

theorem dedupeSpec_sublist : ∀ n (items : List Item), items.length ≤ n →
    List.Sublist (dedupeSpec items) (items.map normItem) := by
  intro n
  induction n with
  | zero =>
    intro items hlen
    rw [List.length_eq_zero.mp (Nat.le_zero.mp hlen)]
    simp [dedupeSpec]
  | succ n ih =>
    intro items hlen
    cases items with
    | nil => simp [dedupeSpec]
    | cons it rest =>
      rw [dedupeSpec, List.map_cons]
      refine List.Sublist.cons₂ _ ?_
      have h1 : List.Sublist
          (dedupeSpec (rest.filter fun y => decide (ddKey y ≠ ddKey it)))
          ((rest.filter fun y => decide (ddKey y ≠ ddKey it)).map normItem) :=
        ih _ (le_trans (List.length_filter_le _ _)
          (by simpa [List.length_cons, Nat.succ_le_succ_iff] using hlen))
      exact h1.trans (List.Sublist.map normItem (List.filter_sublist _))

theorem dedupeSpec_pairwise_distinct (items : List Item)
    (h : items.Pairwise fun a b => ddKey a ≠ ddKey b) :
    dedupeSpec items = items.map normItem := by
  induction items with
  | nil => simp [dedupeSpec]
  | cons it rest ih =>
    rw [dedupeSpec, List.map_cons]
    rcases List.pairwise_cons.mp h with ⟨hhead, htail⟩
    have : rest.filter (fun y => decide (ddKey y ≠ ddKey it)) = rest :=
      List.filter_eq_self.mpr fun a ha =>
        decide_eq_true fun habs => hhead a ha habs.symm
    rw [this, ih htail]

/-- The jittered bbox of the claim's example rounds to the exact one. -/
theorem roundBBox_jitter :
    roundBBox (1004/100, 1998/100, 5001/100, 3002/100) = (10, 20, 50, 30) := by
  unfold roundBBox
  rw [round1_lt_half (1004/100) 100 (by norm_num) (by norm_num),
    round1_gt_half (1998/100) 199 (by norm_num) (by norm_num) (by norm_num),
    round1_lt_half (5001/100) 500 (by norm_num) (by norm_num),
    round1_lt_half (3002/100) 300 (by norm_num) (by norm_num)]
  norm_num

/-- The exact bbox of the claim's example rounds to itself. -/
theorem roundBBox_exact :
    roundBBox ((10 : ℚ), (20 : ℚ), (50 : ℚ), (30 : ℚ)) = (10, 20, 50, 30) := by
  unfold roundBBox
  rw [round1_lt_half 10 100 (by norm_num) (by norm_num),
    round1_lt_half 20 200 (by norm_num) (by norm_num),
    round1_lt_half 50 500 (by norm_num) (by norm_num),
    round1_lt_half 30 300 (by norm_num) (by norm_num)]
  norm_num

/-- Evaluation of `dedupe` on the claim's concrete pair. -/
theorem dedupe_pair_eval :
    dedupe [(3, "E = 1", ((10 : ℚ), (20 : ℚ), (50 : ℚ), (30 : ℚ))),
            (3, "E = 1", (1004/100, 1998/100, 5001/100, 3002/100))] =
      [(3, "E = 1", (10, 20, 50, 30))] := by
  have hkey : ddKey ((3 : ℤ), "E = 1",
        ((1004/100 : ℚ), 1998/100, 5001/100, 3002/100)) =
      ddKey ((3 : ℤ), "E = 1", ((10 : ℚ), (20 : ℚ), (50 : ℚ), (30 : ℚ))) := by
    unfold ddKey
    simp only [roundBBox_jitter, roundBBox_exact]
  show dedupeGo _ [] = _
  rw [dedupeGo, if_neg (List.not_mem_nil _), dedupeGo,
    if_pos (List.mem_singleton.mpr hkey), dedupeGo]
  unfold normItem
  rw [show normalize_equation_text "E = 1" = "E = 1" from by decide]

/-- C2: `dedupe` keeps, in first-occurrence order, exactly one record per
key `(page, normalized text, bbox rounded to one decimal per
coordinate)`, dropping every later element with an equal key.
Conjuncts: (1) `dedupe` equals the first-occurrence-per-key selection
`dedupeSpec`; (2) the output is a subsequence of the input records (with
text normalized, per C10); (3) when all keys are pairwise distinct —
e.g. same normalized text but different page or different rounded bbox —
every element is kept; (4) the claim's concrete case: two entries with
equal page and text and bboxes `(10.00,20.00,50.00,30.00)` and
`(10.04,19.98,50.01,30.02)` collapse to the first. -/
theorem C2_dedupe_first_occurrence_per_key :
    (∀ items : List Item, dedupe items = dedupeSpec items) ∧
    (∀ items : List Item, List.Sublist (dedupe items) (items.map normItem)) ∧
    (∀ items : List Item,
      items.Pairwise (fun a b => ddKey a ≠ ddKey b) →
        dedupe items = items.map normItem) ∧
    dedupe [(3, "E = 1", ((10 : ℚ), (20 : ℚ), (50 : ℚ), (30 : ℚ))),
            (3, "E = 1", (1004/100, 1998/100, 5001/100, 3002/100))] =
      [(3, "E = 1", (10, 20, 50, 30))] := by
  refine ⟨dedupe_eq_dedupeSpec, ?_, ?_, dedupe_pair_eval⟩
  · intro items
    rw [dedupe_eq_dedupeSpec]
    exact dedupeSpec_sublist items.length items le_rfl
  · intro items h
    rw [dedupe_eq_dedupeSpec]
    exact dedupeSpec_pairwise_distinct items h

/-- C2 witness: with pairwise-distinct keys (same text, different pages)
both records are kept. -/
theorem C2_witness :
    dedupe [(1, "a = 1", ((0 : ℚ), (0 : ℚ), (1 : ℚ), (1 : ℚ))),
            (2, "a = 1", ((0 : ℚ), (0 : ℚ), (1 : ℚ), (1 : ℚ)))] =
      ([(1, "a = 1", ((0 : ℚ), (0 : ℚ), (1 : ℚ), (1 : ℚ))),
        (2, "a = 1", ((0 : ℚ), (0 : ℚ), (1 : ℚ), (1 : ℚ)))] :
          List Item).map normItem :=
  C2_dedupe_first_occurrence_per_key.2.2.1 _
    (by
      refine List.pairwise_cons.mpr ⟨?_, List.pairwise_singleton _ _⟩
      intro b hb
      rw [List.mem_singleton.mp hb]
      intro habs
      have h12 : (1 : ℤ) = 2 := congrArg Prod.fst habs
      exact absurd h12 (by decide))

theorem filter_decomp {Q : Item → Prop} (p : Item → Bool) :
    ∀ (l pre post : List Item) (orig : Item),
      l.filter p = pre ++ orig :: post →
      (∀ y ∈ pre, Q y) →
      (∀ y ∈ l, p y = false → Q y) →
      ∃ A B, l = A ++ orig :: B ∧ ∀ y ∈ A, Q y := by
  intro l
  induction l with
  | nil =>
    intro pre post orig hfil
    simp at hfil
  | cons x l ih =>
    intro pre post orig hfil hpre hdrop
    rw [List.filter_cons] at hfil
    by_cases hx : p x
    · rw [if_pos hx] at hfil
      cases pre with
      | nil =>
        simp only [List.nil_append, List.cons.injEq] at hfil
        rcases hfil with ⟨rfl, -⟩
        exact ⟨[], l, rfl, by simp⟩
      | cons z pre' =>
        simp only [List.cons_append, List.cons.injEq] at hfil
        rcases hfil with ⟨rfl, hfil⟩
        rcases ih pre' post orig hfil
          (fun y hy => hpre y (by simp [hy]))
          (fun y hy hpy => hdrop y (by simp [hy]) hpy) with ⟨A, B, rfl, hA⟩
        refine ⟨x :: A, B, rfl, ?_⟩
        intro y hy
        rcases List.mem_cons.mp hy with rfl | hy'
        · exact hpre y (by simp)
        · exact hA y hy'
    · rw [if_neg hx] at hfil
      rcases ih pre post orig hfil hpre
        (fun y hy hpy => hdrop y (by simp [hy]) hpy) with ⟨A, B, rfl, hA⟩
      refine ⟨x :: A, B, rfl, ?_⟩
      intro y hy
      rcases List.mem_cons.mp hy with rfl | hy'
      · exact hdrop y (by simp) (Bool.eq_false_iff.mpr hx)
      · exact hA y hy'

theorem dedupeSpec_decomp : ∀ n (items : List Item), items.length ≤ n →
    ∀ e ∈ dedupeSpec items,
      ∃ pre post orig, items = pre ++ orig :: post ∧ e = normItem orig ∧
        ∀ y ∈ pre, ddKey y ≠ ddKey orig := by
  intro n
  induction n with
  | zero =>
    intro items hlen e he
    rw [List.length_eq_zero.mp (Nat.le_zero.mp hlen)] at he
    simp [dedupeSpec] at he
  | succ n ih =>
    intro items hlen e he
    cases items with
    | nil => simp [dedupeSpec] at he
    | cons it rest =>
      rw [dedupeSpec] at he
      rcases List.mem_cons.mp he with rfl | hmem
      · exact ⟨[], rest, it, rfl, rfl, by simp⟩
      · have hlen' : (rest.filter fun y => decide (ddKey y ≠ ddKey it)).length ≤ n :=
          le_trans (List.length_filter_le _ _)
            (by simpa [List.length_cons, Nat.succ_le_succ_iff] using hlen)
        rcases ih _ hlen' e hmem with ⟨pre', post', orig, hfil, he2, hQ⟩
        have horigne : ddKey orig ≠ ddKey it := by
          have : orig ∈ rest.filter fun y => decide (ddKey y ≠ ddKey it) := by
            rw [hfil]; simp
          exact of_decide_eq_true (List.mem_filter.mp this).2
        rcases filter_decomp (Q := fun y => ddKey y ≠ ddKey orig) _ rest pre'
          post' orig hfil hQ
          (fun y _ hpy => by
            have heq : ddKey y = ddKey it := by
              by_contra hne
              rw [decide_eq_true hne] at hpy
              exact absurd hpy (by simp)
            show ddKey y ≠ ddKey orig
            rw [heq]
            exact fun habs => horigne habs.symm) with ⟨A, B, rfl, hA⟩
        refine ⟨it :: A, B, orig, rfl, he2, ?_⟩
        intro y hy
        rcases List.mem_cons.mp hy with rfl | hy'
        · exact fun habs => horigne habs.symm
        · exact hA y hy'

/-- C10: rounding happens only inside the key, never in the output —
every record emitted by `dedupe` is `(page, normalized text, ORIGINAL
un-rounded bbox)` of the first occurrence of its key: the input splits
as `pre ++ orig :: post` with no element of `pre` sharing `orig`'s key,
and the emitted record is exactly `normItem orig`. -/
theorem C10_dedupe_emits_original_bbox (items : List Item) (e : Item)
    (he : e ∈ dedupe items) :
    ∃ pre post orig, items = pre ++ orig :: post ∧
      e = (orig.1, normalize_equation_text orig.2.1, orig.2.2) ∧
      ∀ y ∈ pre, ddKey y ≠ ddKey orig := by
  rw [dedupe_eq_dedupeSpec] at he
  exact dedupeSpec_decomp items.length items le_rfl e he

/-- C10 witness: the survivor of the collapsed pair carries the exact
first-seen bbox `(10,20,50,30)`, not a rounded one; concretely the
decomposition exists with `pre = []`. -/
theorem C10_witness :
    ∃ pre post orig,
      ([(3, "E = 1", ((10 : ℚ), (20 : ℚ), (50 : ℚ), (30 : ℚ))),
        (3, "E = 1", (1004/100, 1998/100, 5001/100, 3002/100))] :
          List Item) = pre ++ orig :: post ∧
      ((3 : ℤ), "E = 1", ((10 : ℚ), (20 : ℚ), (50 : ℚ), (30 : ℚ))) =
        (orig.1, normalize_equation_text orig.2.1, orig.2.2) ∧
      ∀ y ∈ pre, ddKey y ≠ ddKey orig :=
  C10_dedupe_emits_original_bbox _ _
    (by rw [dedupe_pair_eval]; exact List.mem_singleton.mpr rfl)

/-- A text region as consumed by the exporter: the `"bbox"` and `"text"`
fields of the block dicts produced by `extract_text_blocks`. -/
structure Block where
  bbox : BBox
  text : String

instance : Inhabited Block :=
  ⟨⟨(0, 0, 0, 0), ""⟩⟩

/-- `block_text`. -/
def block_text (b : Block) : String :=
  b.text

/-- `block_bbox`. -/
def block_bbox (b : Block) : BBox :=
  b.bbox

/-- The inner `clip` of `build_context`: re-collapse whitespace, then
truncate to 137 characters plus a three-dot ellipsis when longer than
140. -/
def clip (s : String) : String :=
  let s' := joinSp (pwords s.data)
  if 140 < s'.length then ⟨s'.take 137 ++ ('.' :: '.' :: '.' :: [])⟩
  else ⟨s'⟩

/-- `build_context` from `export_lm5148_equations_to_excel.py`.  Python
string truthiness (`if prev_txt and next_txt`, `prev_txt or next_txt or
""`) is non-emptiness. -/
def build_context (blocks_sorted : List Block) (idx : ℕ) : String :=
  let prev_txt :=
    if 1 ≤ idx then
      normalize_equation_text (block_text (blocks_sorted.getD (idx - 1) default))
    else ""
  let next_txt :=
    if idx + 1 < blocks_sorted.length then
      normalize_equation_text (block_text (blocks_sorted.getD (idx + 1) default))
    else ""
  let p := clip prev_txt
  let n := clip next_txt
  if p ≠ "" ∧ n ≠ "" then p ++ " | " ++ n
  else if p ≠ "" then p
  else if n ≠ "" then n
  else ""

/-- A neighbor snippet: the neighbor's normalized text, clipped. -/
def nbSnippet (b : Block) : String :=
  clip (normalize_equation_text (block_text b))

theorem clip_empty : clip "" = "" := by decide

theorem string_length_mk (l : List Char) : (String.mk l).length = l.length :=
  rfl

/-- On an already-normalized string, `clip` only truncates. -/
theorem clip_normalize (s : String) :
    clip (normalize_equation_text s) =
      if 140 < (normalize_equation_text s).length then
        ⟨(normalize_equation_text s).data.take 137 ++ ('.' :: '.' :: '.' :: [])⟩
      else normalize_equation_text s := by
  unfold clip
  have hdata : (normalize_equation_text s).data =
      joinSp ((pwords s.data).map (List.map repMinus)) :=
    normalizeL_eq_joinSp s.data
  have hre : joinSp (pwords (normalize_equation_text s).data) =
      (normalize_equation_text s).data := by
    rw [hdata, pwords_joinSp _ (wordsOK_map_repMinus _ (wordsOK_pwords s.data))]
  rw [hre]
  show (if 140 < (normalize_equation_text s).data.length then
      (⟨(normalize_equation_text s).data.take 137 ++
        ('.' :: '.' :: '.' :: [])⟩ : String)
    else ⟨(normalize_equation_text s).data⟩) = _
  by_cases h : 140 < (normalize_equation_text s).length
  · rw [if_pos (show 140 < (normalize_equation_text s).data.length from h),
      if_pos h]
  · rw [if_neg (show ¬140 < (normalize_equation_text s).data.length from h),
      if_neg h]

/-- Every snippet is at most 140 characters long. -/
theorem nbSnippet_length_le (b : Block) : (nbSnippet b).length ≤ 140 := by
  unfold nbSnippet
  rw [clip_normalize]
  by_cases h : 140 < (normalize_equation_text (block_text b)).length
  · rw [if_pos h, string_length_mk, List.length_append, List.length_take]
    have : (normalize_equation_text (block_text b)).data.length =
        (normalize_equation_text (block_text b)).length := rfl
    rw [this]
    simp only [List.length_cons, List.length_nil]
    omega
  · rw [if_neg h]
    omega

/-- C4: `build_context` is total on every in-range index; each neighbor
snippet is the neighbor's normalized text clipped to at most 140
characters (137 characters plus `"..."` when longer); with two
non-empty neighbors the result joins them with `" | "`; at the first or
last index the remaining single snippet is returned alone; with a
single-element list the result is the empty string. -/
theorem C4_build_context (blocks : List Block) (idx : ℕ)
    (h : idx < blocks.length) :
    (∀ b : Block, (nbSnippet b).length ≤ 140) ∧
    (∀ b : Block,
      140 < (normalize_equation_text (block_text b)).length →
      nbSnippet b =
        ⟨(normalize_equation_text (block_text b)).data.take 137 ++
          ('.' :: '.' :: '.' :: [])⟩) ∧
    (1 ≤ idx → idx + 1 < blocks.length →
      nbSnippet (blocks.getD (idx - 1) default) ≠ "" →
      nbSnippet (blocks.getD (idx + 1) default) ≠ "" →
      build_context blocks idx =
        nbSnippet (blocks.getD (idx - 1) default) ++ " | " ++
          nbSnippet (blocks.getD (idx + 1) default)) ∧
    (idx = 0 → 1 < blocks.length →
      build_context blocks idx = nbSnippet (blocks.getD (idx + 1) default)) ∧
    (1 ≤ idx → idx + 1 = blocks.length →
      build_context blocks idx = nbSnippet (blocks.getD (idx - 1) default)) ∧
    (blocks.length = 1 → build_context blocks idx = "") := by
  refine ⟨nbSnippet_length_le, ?_, ?_, ?_, ?_, ?_⟩
  · intro b hb
    unfold nbSnippet
    rw [clip_normalize, if_pos hb]
  · intro h1 h2 hp hn
    simp only [build_context]
    rw [if_pos h1, if_pos h2, if_pos ⟨hp, hn⟩]
    rfl
  · intro h0 h2
    subst h0
    simp only [build_context]
    rw [if_neg (by omega : ¬ 1 ≤ 0), if_pos (by omega : 0 + 1 < blocks.length),
      clip_empty]
    rw [if_neg (by simp), if_neg (by simp)]
    by_cases hn : nbSnippet (blocks.getD (0 + 1) default) = ""
    · rw [if_neg (by simpa [nbSnippet] using hn)]
      exact hn.symm
    · rw [if_pos (by simpa [nbSnippet] using hn)]
      rfl
  · intro h1 h2
    simp only [build_context]
    rw [if_pos h1, if_neg (by omega : ¬ idx + 1 < blocks.length), clip_empty]
    rw [if_neg (by simp)]
    by_cases hp : nbSnippet (blocks.getD (idx - 1) default) = ""
    · rw [if_neg (by simpa [nbSnippet] using hp), if_neg (by simp)]
      exact hp.symm
    · rw [if_pos (by simpa [nbSnippet] using hp)]
      rfl
  · intro hlen
    have h0 : idx = 0 := by omega
    subst h0
    simp only [build_context]
    rw [if_neg (by omega : ¬ 1 ≤ 0), if_neg (by omega : ¬ 0 + 1 < blocks.length),
      clip_empty]
    rw [if_neg (by simp), if_neg (by simp), if_neg (by simp)]

/-- Demonstration page for the C4 witness: three sequenced regions. -/
def demoBlocks : List Block :=
  [⟨(0, 0, 1, 1), "A = 1"⟩, ⟨(0, 2, 1, 3), "B = 2"⟩, ⟨(0, 4, 1, 5), "C = 3"⟩]

/-- C4 witness: the middle region's context joins both neighbor
snippets with the literal delimiter. -/
theorem C4_witness :
    build_context demoBlocks 1 =
      nbSnippet (demoBlocks.getD 0 default) ++ " | " ++
        nbSnippet (demoBlocks.getD 2 default) :=
  (C4_build_context demoBlocks 1 (by decide)).2.2.1 (by decide) (by decide)
    (by decide) (by decide)

/-- The sort key of `sorted_blocks_by_position`: `(y0, x0)`. -/
def blockKey (b : Block) : ℚ × ℚ :=
  (b.bbox.2.1, b.bbox.1)

/-- Lexicographic tuple comparison, the order realized by Python
`sorted` with a tuple key. -/
def keyLE (p q : ℚ × ℚ) : Bool :=
  decide (p.1 < q.1 ∨ (p.1 = q.1 ∧ p.2 ≤ q.2))

/-- `sorted_blocks_by_position`: Python `sorted` is a stable sort by the
key, embedded as the stable `List.mergeSort`. -/
def sorted_blocks_by_position (blocks : List Block) : List Block :=
  blocks.mergeSort fun a b => keyLE (blockKey a) (blockKey b)

theorem keyLE_refl_of_eq (p q : ℚ × ℚ) (h : p = q) : keyLE p q = true := by
  subst h
  exact decide_eq_true (Or.inr ⟨rfl, le_refl _⟩)

theorem keyLE_total (p q : ℚ × ℚ) : (keyLE p q || keyLE q p) = true := by
  rw [Bool.or_eq_true]
  unfold keyLE
  rcases lt_trichotomy p.1 q.1 with h | h | h
  · exact Or.inl (decide_eq_true (Or.inl h))
  · rcases le_total p.2 q.2 with h2 | h2
    · exact Or.inl (decide_eq_true (Or.inr ⟨h, h2⟩))
    · exact Or.inr (decide_eq_true (Or.inr ⟨h.symm, h2⟩))
  · exact Or.inr (decide_eq_true (Or.inl h))

theorem keyLE_trans (p q r : ℚ × ℚ) (h1 : keyLE p q = true)
    (h2 : keyLE q r = true) : keyLE p r = true := by
  unfold keyLE at h1 h2 ⊢
  rcases of_decide_eq_true h1 with ha | ⟨ha, ha2⟩
  · rcases of_decide_eq_true h2 with hb | ⟨hb, hb2⟩
    · exact decide_eq_true (Or.inl (ha.trans hb))
    · exact decide_eq_true (Or.inl (hb ▸ ha))
  · rcases of_decide_eq_true h2 with hb | ⟨hb, hb2⟩
    · exact decide_eq_true (Or.inl (ha ▸ hb))
    · exact decide_eq_true (Or.inr ⟨ha.trans hb, ha2.trans hb2⟩)

/-- C7: `sorted_blocks_by_position` permutes its input into
non-decreasing lexicographic `(y0, x0)` order, and the sort is stable:
for every key value, the sublist of regions carrying exactly that key is
unchanged, so equal-key regions retain their original relative order. -/
theorem C7_sorted_blocks_by_position_spec (blocks : List Block) :
    (sorted_blocks_by_position blocks).Perm blocks ∧
    (sorted_blocks_by_position blocks).Pairwise
      (fun a b => keyLE (blockKey a) (blockKey b) = true) ∧
    ∀ k : ℚ × ℚ,
      (sorted_blocks_by_position blocks).filter
          (fun b => decide (blockKey b = k)) =
        blocks.filter (fun b => decide (blockKey b = k)) := by
  have htrans : ∀ a b c : Block,
      keyLE (blockKey a) (blockKey b) = true →
      keyLE (blockKey b) (blockKey c) = true →
      keyLE (blockKey a) (blockKey c) = true :=
    fun a b c => keyLE_trans (blockKey a) (blockKey b) (blockKey c)
  have htotal : ∀ a b : Block,
      (keyLE (blockKey a) (blockKey b) || keyLE (blockKey b) (blockKey a)) =
        true :=
    fun a b => keyLE_total (blockKey a) (blockKey b)
  refine ⟨List.mergeSort_perm blocks _, ?_, ?_⟩
  · exact List.sorted_mergeSort htrans htotal blocks
  · intro k
    set pk : Block → Bool := fun b => decide (blockKey b = k) with hpk
    have hmemk : ∀ b ∈ blocks.filter pk, blockKey b = k := by
      intro b hb
      exact of_decide_eq_true (List.mem_filter.mp hb).2
    have hc : (blocks.filter pk).Pairwise
        (fun a b => keyLE (blockKey a) (blockKey b) = true) :=
      List.pairwise_of_forall_mem_list fun a ha b hb =>
        keyLE_refl_of_eq _ _ ((hmemk a ha).trans (hmemk b hb).symm)
    have hsub : List.Sublist (blocks.filter pk)
        (sorted_blocks_by_position blocks) :=
      List.sublist_mergeSort htrans htotal hc (List.filter_sublist blocks)
    have hsub2 : List.Sublist (blocks.filter pk)
        ((sorted_blocks_by_position blocks).filter pk) := by
      have := hsub.filter pk
      rwa [List.filter_eq_self.mpr (fun a ha =>
        (List.mem_filter.mp ha).2)] at this
    have hperm : ((sorted_blocks_by_position blocks).filter pk).Perm
        (blocks.filter pk) :=
      (List.mergeSort_perm blocks _).filter pk
    exact (hsub2.eq_of_length hperm.length_eq.symm).symm

/-- A classified candidate as accumulated by the page loop of `main`:
`(page, text, bbox, context)`. -/
abbrev Cand := ℤ × String × BBox × String

/-- The key under which `main` stores a candidate's context
(`(p, normalize_equation_text(t), tuple(round(v, 1) for v in bb))`). -/
def candKey (c : Cand) : ℤ × String × BBox :=
  (c.1, normalize_equation_text c.2.1, roundBBox c.2.2.1)

/-- The `ctx_map.setdefault` loop of `main`: the first context written
for a key wins. -/
def buildCtxMap : List Cand → List ((ℤ × String × BBox) × String) →
    List ((ℤ × String × BBox) × String)
  | [], m => m
  | c :: rest, m =>
    buildCtxMap rest
      (if (m.find? fun e => decide (e.1 = candKey c)).isSome then m
       else m ++ [(candKey c, c.2.2.2)])

/-- `ctx_map.get(key, "")`. -/
def ctxLookup (m : List ((ℤ × String × BBox) × String))
    (k : ℤ × String × BBox) : String :=
  ((m.find? fun e => decide (e.1 = k)).map fun e => e.2).getD ""

/-- An output record of `main` — the `EquationItem` dataclass without
the I/O-only snapshot path. -/
structure EquationItem where
  eq_id : ℕ
  page : ℤ
  text : String
  context : String
  bbox : BBox

/-- The output loop of `main`: walk the deduplicated records in order,
assigning `eq_id = 1, 2, ...` by a counter that starts at 1 and is
incremented once per record. -/
def buildItems (m : List ((ℤ × String × BBox) × String)) :
    ℕ → List Item → List EquationItem
  | _, [] => []
  | eq_id, (p, t, bb) :: rest =>
    ⟨eq_id, p, t, ctxLookup m (p, t, roundBBox bb), bb⟩ ::
      buildItems m (eq_id + 1) rest

/-- The pure core of `main` after per-page scanning: deduplicate the
full cross-page candidate list, then (and only then) rebuild contexts
and assign identifiers starting from 1. -/
def mainCore (candidates : List Cand) : List EquationItem :=
  let deduped := dedupe (candidates.map fun c => (c.1, c.2.1, c.2.2.1))
  let m := buildCtxMap candidates []
  buildItems m 1 deduped

theorem buildItems_map_eq_id (m : List ((ℤ × String × BBox) × String)) :
    ∀ (l : List Item) (k : ℕ),
      (buildItems m k l).map (fun e => e.eq_id) = List.range' k l.length := by
  intro l
  induction l with
  | nil => intro k; rfl
  | cons it rest ih =>
    intro k
    rcases it with ⟨p, t, bb⟩
    simp only [buildItems, List.map_cons, List.length_cons, List.range']
    rw [ih (k + 1)]

theorem buildItems_map_record (m : List ((ℤ × String × BBox) × String)) :
    ∀ (l : List Item) (k : ℕ),
      (buildItems m k l).map (fun e => (e.page, e.text, e.bbox)) = l := by
  intro l
  induction l with
  | nil => intro k; rfl
  | cons it rest ih =>
    intro k
    rcases it with ⟨p, t, bb⟩
    simp only [buildItems, List.map_cons]
    rw [ih (k + 1)]

theorem buildItems_get_eq_id (m : List ((ℤ × String × BBox) × String)) :
    ∀ (l : List Item) (k i : ℕ) (h : i < (buildItems m k l).length),
      ((buildItems m k l).get ⟨i, h⟩).eq_id = k + i := by
  intro l
  induction l with
  | nil =>
    intro k i h
    simp [buildItems] at h
  | cons it rest ih =>
    intro k i h
    rcases it with ⟨p, t, bb⟩
    cases i with
    | zero => rfl
    | succ i' =>
      have h' : i' < (buildItems m (k + 1) rest).length := by
        simpa [buildItems] using h
      have := ih (k + 1) i' h'
      simp only [buildItems, List.get_cons_succ]
      rw [this]
      omega

/-- C3: after the run, the emitted identifiers are exactly `1..N` for
`N` the number of unique deduplicated records — dense, 1-based, no
gaps, no repeats — assigned in the order the unique candidates survive
deduplication (the i-th surviving record gets id `i+1`), and only as a
function of the completed cross-page deduplication (`mainCore` consumes
`dedupe` of the full candidate list before any id is produced). -/
theorem C3_identifier_density (candidates : List Cand) :
    (mainCore candidates).map (fun e => e.eq_id) =
      List.range' 1
        (dedupe (candidates.map fun c => (c.1, c.2.1, c.2.2.1))).length ∧
    (mainCore candidates).map (fun e => (e.page, e.text, e.bbox)) =
      dedupe (candidates.map fun c => (c.1, c.2.1, c.2.2.1)) ∧
    ∀ i (h : i < (mainCore candidates).length),
      ((mainCore candidates).get ⟨i, h⟩).eq_id = i + 1 := by
  refine ⟨?_, ?_, ?_⟩
  · simp only [mainCore]
    rw [buildItems_map_eq_id]
  · simp only [mainCore]
    rw [buildItems_map_record]
  · intro i h
    simp only [mainCore] at h ⊢
    rw [buildItems_get_eq_id]
    omega

instance : Inhabited EquationItem :=
  ⟨⟨0, 0, "", "", (0, 0, 0, 0)⟩⟩

/-- Single-candidate run for the C3 witness. -/
def demoCands : List Cand :=
  [(1, "x = 1", ((0 : ℚ), 0, 1, 1), "ctx")]

/-- C3 witness: one unique candidate yields exactly the identifier list
`[1]`, and the first (and only) record carries id 1. -/
theorem C3_witness :
    (mainCore demoCands).map (fun e => e.eq_id) = [1] ∧
    ((mainCore demoCands).getD 0 default).eq_id = 1 := by
  have h1 := (C3_identifier_density demoCands).1
  have hlen : (dedupe (demoCands.map fun c => (c.1, c.2.1, c.2.2.1))).length =
      1 := by
    simp [demoCands, dedupe, dedupeGo]
  constructor
  · rw [h1, hlen]
    rfl
  · have hlen2 : 0 < (mainCore demoCands).length := by
      have hc := congrArg List.length h1
      rw [List.length_map, hlen] at hc
      simp only [List.length_range'] at hc
      omega
    rw [List.getD_eq_getElem _ _ hlen2]
    exact (C3_identifier_density demoCands).2.2 0 hlen2

/-- A page rectangle `(x0, y0, x1, y1)`, y-axis downward. -/
structure Rect where
  x0 : ℚ
  y0 : ℚ
  x1 : ℚ
  y1 : ℚ

/-- Abstraction of the opened PDF document used by
`extract_equation_images`: page geometry and the `page.search_for`
text-search primitive (match rectangles of a literal token on a 0-based
page). -/
structure Doc where
  pageWidth : ℕ → ℚ
  pageHeight : ℕ → ℚ
  searchFor : ℕ → String → List Rect

/-- The searched token `f"({eq})"`. -/
def eqToken (eq : ℕ) : String :=
  "(" ++ toString eq ++ ")"

/-- Python `range(a, b)`: increasing, empty when `b ≤ a`. -/
def pyRange (a b : ℕ) : List ℕ :=
  List.range' a (b - a)

/-- The crop rectangle: full page width, from 180 above the match top
(clamped at 0) down to 30 below the match bottom (clamped at the page
height). -/
def cropClip (doc : Doc) (pno : ℕ) (r : Rect) : Rect :=
  ⟨0, max 0 (r.y0 - 180), doc.pageWidth pno,
    min (doc.pageHeight pno) (r.y1 + 30)⟩

/-- The inner page loop: the first page of the list on which the token
occurs, paired with the first match rectangle there. -/
def findFirstMatch (doc : Doc) (token : String) : List ℕ → Option (ℕ × Rect)
  | [] => none
  | pno :: rest =>
    match doc.searchFor pno token with
    | [] => findFirstMatch doc token rest
    | r :: _ => some (pno, r)

/-- One label of `extract_equation_images`; `none` is the soft miss
(the label is simply absent from the returned dict, no exception). -/
def extractOne (doc : Doc) (pages_1based : ℕ × ℕ) (eq : ℕ) :
    Option (ℕ × ℕ × Rect) :=
  (findFirstMatch doc (eqToken eq)
      (pyRange (pages_1based.1 - 1) pages_1based.2)).map
    fun pr => (eq, pr.1 + 1, cropClip doc pr.1 pr.2)

/-- `extract_equation_images` from `lm5148_design_tool.py` (modulo
rasterization and file output): each found label mapped to the 1-based
page and crop rectangle of its snapshot; missed labels are omitted. -/
def extract_equation_images (doc : Doc) (equation_numbers : List ℕ)
    (pages_1based : ℕ × ℕ) : List (ℕ × ℕ × Rect) :=
  equation_numbers.filterMap (extractOne doc pages_1based)

theorem findFirstMatch_none (doc : Doc) (token : String) :
    ∀ l : List ℕ, (∀ pno ∈ l, doc.searchFor pno token = []) →
      findFirstMatch doc token l = none := by
  intro l
  induction l with
  | nil => intro _; rfl
  | cons pno rest ih =>
    intro h
    rw [findFirstMatch, h pno (by simp)]
    exact ih fun p hp => h p (by simp [hp])

theorem findFirstMatch_first (doc : Doc) (token : String) :
    ∀ (l : List ℕ) (i : ℕ), i < l.length →
      (∀ j, j < i → doc.searchFor (l.getD j 0) token = []) →
      ∀ r rest, doc.searchFor (l.getD i 0) token = r :: rest →
      findFirstMatch doc token l = some (l.getD i 0, r) := by
  intro l
  induction l with
  | nil =>
    intro i hi
    simp at hi
  | cons pno tail ih =>
    intro i hi hj r rest hsearch
    cases i with
    | zero =>
      simp only [List.getD_cons_zero] at hsearch ⊢
      rw [findFirstMatch, hsearch]
    | succ i' =>
      have h0 : doc.searchFor pno token = [] := by
        have := hj 0 (Nat.succ_pos i')
        simpa using this
      rw [findFirstMatch, h0]
      simp only [List.getD_cons_succ] at hsearch ⊢
      exact ih i' (by simpa using hi)
        (fun j hj' => by simpa using hj (j + 1) (by omega)) r rest hsearch

/-- C5: for every label, the locator scans the 1-based page range in
increasing order; on the first page with a match for the literal token
`f"({eq})"` it takes the first match rectangle and crops from
`max(0, y0 - 180)` down to `min(page_height, y1 + 30)` (so, for a match
lying on the page, the crop's vertical extent stays inside
`[0, page_height]`); a label matching no page in the range is simply
omitted from the result (soft miss, never an exception), and labels are
processed independently. -/
theorem C5_extract_equation_images_spec (doc : Doc) (eq : ℕ) (lo hi : ℕ) :
    ((∀ pno ∈ pyRange (lo - 1) hi, doc.searchFor pno (eqToken eq) = []) →
      extractOne doc (lo, hi) eq = none) ∧
    (∀ i, i < (pyRange (lo - 1) hi).length →
      (∀ j, j < i →
        doc.searchFor ((pyRange (lo - 1) hi).getD j 0) (eqToken eq) = []) →
      ∀ r rest,
        doc.searchFor ((pyRange (lo - 1) hi).getD i 0) (eqToken eq) =
          r :: rest →
        extractOne doc (lo, hi) eq =
          some (eq, (pyRange (lo - 1) hi).getD i 0 + 1,
            cropClip doc ((pyRange (lo - 1) hi).getD i 0) r)) ∧
    (∀ (pno : ℕ) (r : Rect), 0 ≤ r.y0 → r.y0 ≤ doc.pageHeight pno →
      0 ≤ r.y1 →
      (cropClip doc pno r).y0 = max 0 (r.y0 - 180) ∧
      (cropClip doc pno r).y1 = min (doc.pageHeight pno) (r.y1 + 30) ∧
      0 ≤ (cropClip doc pno r).y0 ∧
      (cropClip doc pno r).y0 ≤ doc.pageHeight pno ∧
      0 ≤ (cropClip doc pno r).y1 ∧
      (cropClip doc pno r).y1 ≤ doc.pageHeight pno) ∧
    (∀ eqs : List ℕ, extract_equation_images doc eqs (lo, hi) =
      eqs.filterMap (extractOne doc (lo, hi))) := by
  refine ⟨?_, ?_, ?_, fun _ => rfl⟩
  · intro hnone
    unfold extractOne
    rw [findFirstMatch_none doc (eqToken eq) _ hnone]
    rfl
  · intro i hi hj r rest hsearch
    unfold extractOne
    rw [findFirstMatch_first doc (eqToken eq) _ i hi hj r rest hsearch]
    rfl
  · intro pno r h0 hh h1
    have hH : (0 : ℚ) ≤ doc.pageHeight pno := le_trans h0 hh
    refine ⟨rfl, rfl, le_max_left 0 _, ?_, ?_, min_le_left _ _⟩
    · exact max_le hH (by linarith)
    · exact le_min hH (by linarith)

/-- Concrete document for the C5 witness: the token of equation 31 has
one match, on 0-based page 37; every other page is empty. -/
def demoDoc : Doc :=
  ⟨fun _ => 612, fun _ => 792,
    fun pno _ => if pno = 37 then [⟨100, 300, 140, 315⟩] else []⟩

/-- C5 witness: scanning 1-based pages 36–39, the first matching page is
0-based 37 (pages 35 and 36 are empty), and the result records 1-based
page 38 with the crop built from the first match rectangle. -/
theorem C5_witness :
    extractOne demoDoc (36, 39) 31 =
      some (31, 38, cropClip demoDoc 37 ⟨100, 300, 140, 315⟩) :=
  (C5_extract_equation_images_spec demoDoc 31 36 39).2.1 2 (by decide)
    (fun j hj => by
      match j, hj with
      | 0, _ => rfl
      | 1, _ => rfl)
    ⟨100, 300, 140, 315⟩ [] rfl

end LM5148
